import Mathlib

/-!
Shallow embedding of the Nyancat Delta-RLE + Huffman decompressor
(`2-mmio-trap/csrc/nyancat-huffman.c`) and proofs about it.

Modelling conventions:
* C machine integers become `Nat` with explicit `% 2 ^ w` where overflow
  could matter (`uint32_t` bit buffer, `uint16_t` code accumulator).
* The compressed payload (`const uint8_t *`) is modelled as a total byte
  source `Nat → Nat`; each fetched byte is reduced `% 256` (`uint8_t`).
  The C reader performs no bounds check by design (spec section 4.1), so a
  total function is the faithful model of "reading is always in bounds".
* The global arrays `frame_buffer`, `prev_frame_buffer`, `opcodes_buffer`
  become explicit state of type `Nat → Nat` threaded through the
  functions; array stores become `Function.update`.
* The Huffman table and payload live in `nyancat-huffman.h`, which is not
  part of the repository sources; functions reading them take the table /
  payload / bit length as parameters.
-/

set_option autoImplicit false

namespace Nyancat

/-- A frame buffer (the C arrays `frame_buffer` / `prev_frame_buffer`);
only indices `0 ≤ i < 4096` correspond to real array cells. -/
abbrev Frame := Nat → Nat

/-- The C struct `BitStream`: 32-bit bit buffer, count of unconsumed
bits, the borrowed byte payload and the read cursor into it. -/
structure BitStream where
  buffer : Nat
  bits_available : Nat
  data : Nat → Nat
  data_pos : Nat

/-- `bitstream_init`: zeroed buffer and cursor over the given payload. -/
def bitstream_init (data : Nat → Nat) : BitStream :=
  { buffer := 0, bits_available := 0, data := data, data_pos := 0 }

/-- `bitstream_read_bit`: refill the byte buffer when empty, then return
the most significant pending bit, shifting the buffer left (`uint32_t`,
hence `% 2 ^ 32`). Returns the bit together with the updated stream. -/
def bitstream_read_bit (bs : BitStream) : Nat × BitStream :=
  let bs1 :=
    if bs.bits_available = 0 then
      { bs with buffer := bs.data bs.data_pos % 256,
                bits_available := 8,
                data_pos := bs.data_pos + 1 }
    else bs
  ((bs1.buffer >>> 7) &&& 1,
   { bs1 with buffer := (bs1.buffer <<< 1) % 2 ^ 32,
              bits_available := bs1.bits_available - 1 })

/-- Read `n` successive bits, returning them in order with the final
stream state (iterates `bitstream_read_bit`). -/
def readBits (bs : BitStream) : Nat → List Nat × BitStream
  | 0 => ([], bs)
  | n + 1 =>
    let r := bitstream_read_bit bs
    let q := readBits r.2 n
    (r.1 :: q.1, q.2)

/-- Modelled from the spec: one row of `huffman_table` from the missing
header `nyancat-huffman.h` — a mapping from (code value, code length in
bits) to an 8-bit opcode (spec section 3, "Prefix code table"). -/
structure HuffmanEntry where
  code : Nat
  code_len : Nat
  opcode : Nat
deriving DecidableEq, Repr

/-- The bit-by-bit matching loop of `huffman_decode_opcode`.  `fuel` is
the number of loop iterations still allowed (the C loop runs while
`code_len < 16`, so the entry point passes fuel 16); `cc` and `cl` are
`current_code` (`uint16_t`, hence `% 2 ^ 16`) and `code_len`.  The inner
`for` scan over `huffman_table` returning the first hit is
`List.find?`. -/
def decodeGo (table : List HuffmanEntry) :
    Nat → Nat → Nat → BitStream → Nat × BitStream
  | 0, _, _, bs => (255, bs)
  | fuel + 1, cc, cl, bs =>
    let r := bitstream_read_bit bs
    let cc1 := ((cc <<< 1) ||| r.1) % 2 ^ 16
    let cl1 := cl + 1
    match table.find? (fun e => e.code_len == cl1 && e.code == cc1) with
    | some e => (e.opcode, r.2)
    | none => decodeGo table fuel cc1 cl1 r.2

/-- `huffman_decode_opcode`: start with empty code and length 0; at most
16 bits are consumed; returns 0xFF when no table entry matched. -/
def huffman_decode_opcode (table : List HuffmanEntry) (bs : BitStream) :
    Nat × BitStream :=
  decodeGo table 16 0 0 bs

/-- The value the decoder's `current_code` register holds after `j`
further iterations from value `cc`: shift in one stream bit per step,
`uint16_t` truncated, exactly as `huffman_decode_opcode` does. -/
def accumVal (cc : Nat) (bs : BitStream) : Nat → Nat
  | 0 => cc
  | j + 1 =>
    accumVal (((cc <<< 1) ||| (bitstream_read_bit bs).1) % 2 ^ 16)
      (bitstream_read_bit bs).2 j

/-- MSB-first value of a bit list: `bitsVal [1,0,1] = 5`. -/
def bitsVal : List Nat → Nat
  | [] => 0
  | b :: l => b * 2 ^ l.length + bitsVal l

/-- The `len`-bit MSB-first bit sequence of `code`. -/
def codeBits (len code : Nat) : List Nat :=
  (List.range len).map fun k => (code >>> (len - 1 - k)) &&& 1

/-- The well-formedness the spec ascribes to the supplied code table
(section 3): lengths between 1 and 16, values in range, no two entries
with the same (length, value) pair mapping to different opcodes, and the
table is a canonical prefix code: no codeword extends a shorter one
(stated by shifting: the leading `a.code_len` bits of a longer `b.code`
never equal `a.code`). -/
abbrev codeTableGood (table : List HuffmanEntry) : Prop :=
  (∀ e ∈ table, 1 ≤ e.code_len ∧ e.code_len ≤ 16 ∧ e.code < 2 ^ e.code_len) ∧
  (∀ a ∈ table, ∀ b ∈ table,
      a.code_len = b.code_len → a.code = b.code → a.opcode = b.opcode) ∧
  (∀ a ∈ table, ∀ b ∈ table,
      a.code_len < b.code_len → b.code >>> (b.code_len - a.code_len) ≠ a.code)

/-- The inner write loop shared by the repeat opcodes:
`for (j = 0; j < count && pos < FRAME_SIZE; j++) frame_buffer[pos++] = color;`
recursion is on the residual `count`. Returns the buffer and cursor. -/
def writeRun (fb : Frame) (pos color : Nat) : Nat → Frame × Nat
  | 0 => (fb, pos)
  | count + 1 =>
    if pos < 4096 then writeRun (Function.update fb pos color) (pos + 1) color count
    else (fb, pos)

/-- The tail fill of the baseline branch:
`while (output_index < FRAME_SIZE) frame_buffer[output_index++] = 0;`. -/
def fillZero (fb : Frame) (pos : Nat) : Frame :=
  if h : pos < 4096 then fillZero (Function.update fb pos 0) (pos + 1)
  else fb
termination_by 4096 - pos
decreasing_by omega

/-- The frame-0 opcode loop of `decompress_frame` (baseline RLE): runs
while opcodes remain and `output_index < FRAME_SIZE`, stops at 0xFF;
high nibble 0x0 sets the color, 0x2/0x3 are short/long repeats, all
other opcodes are ignored. Returns the buffer and final cursor. -/
def baselineLoop : List Nat → Frame → Nat → Nat → Frame × Nat
  | [], fb, pos, _ => (fb, pos)
  | op :: rest, fb, pos, color =>
    if pos < 4096 then
      if op = 255 then (fb, pos)
      else if op &&& 0xF0 = 0x00 then baselineLoop rest fb pos (op &&& 0x0F)
      else if op &&& 0xF0 = 0x20 then
        let p := writeRun fb pos color ((op &&& 0x0F) + 1)
        baselineLoop rest p.1 p.2 color
      else if op &&& 0xF0 = 0x30 then
        let p := writeRun fb pos color (((op &&& 0x0F) + 1) * 16)
        baselineLoop rest p.1 p.2 color
      else baselineLoop rest fb pos color
    else (fb, pos)

/-- The delta opcode loop of `decompress_frame` (frames 1–11): same
shape as the baseline loop but with skip opcodes 0x1/0x3/0x5 that move
the cursor without writing, and repeats 0x2/0x4. -/
def deltaLoop : List Nat → Frame → Nat → Nat → Frame × Nat
  | [], fb, pos, _ => (fb, pos)
  | op :: rest, fb, pos, color =>
    if pos < 4096 then
      if op = 255 then (fb, pos)
      else if op &&& 0xF0 = 0x00 then deltaLoop rest fb pos (op &&& 0x0F)
      else if op &&& 0xF0 = 0x10 then deltaLoop rest fb (pos + ((op &&& 0x0F) + 1)) color
      else if op &&& 0xF0 = 0x20 then
        let p := writeRun fb pos color ((op &&& 0x0F) + 1)
        deltaLoop rest p.1 p.2 color
      else if op &&& 0xF0 = 0x30 then deltaLoop rest fb (pos + ((op &&& 0x0F) + 1) * 16) color
      else if op &&& 0xF0 = 0x40 then
        let p := writeRun fb pos color (((op &&& 0x0F) + 1) * 16)
        deltaLoop rest p.1 p.2 color
      else if op &&& 0xF0 = 0x50 then deltaLoop rest fb (pos + ((op &&& 0x0F) + 1) * 64) color
      else deltaLoop rest fb pos color
    else (fb, pos)

/-- `for (i = 0; i < FRAME_SIZE; i++) dst[i] = src[i];` — the two
frame-copy loops in `decompress_frame`, as a function override on the
4096 real cells. -/
def copyFrame (dst src : Frame) : Frame :=
  fun i => if i < 4096 then src i else dst i

/-- `decompress_frame`: baseline RLE (then zero fill) for frame 0,
delta over a copy of the previous frame otherwise; finally the result
is copied into the previous-frame buffer. The two global buffers are
passed in and the updated pair `(frame_buffer, prev_frame_buffer)` is
returned. -/
def decompress_frame (frame_index : Nat) (opcodes : List Nat)
    (fb prev : Frame) : Frame × Frame :=
  let fb1 :=
    if frame_index = 0 then
      let p := baselineLoop opcodes fb 0 0
      fillZero p.1 p.2
    else
      (deltaLoop opcodes (copyFrame fb prev) 0 0).1
  (fb1, copyFrame prev fb1)

/-- The `while` loop of `huffman_decompress_all_opcodes`: decode one
opcode, append it (`opcodes_buffer[opcode_count++]`), add the 6-bit
estimate to `bits_read`, and break early when the opcode is 0xFF and
more than 4000 opcodes have accumulated. Terminates because
`bits_read` grows by 6 every iteration while `total` is fixed. -/
def decompressLoop (table : List HuffmanEntry) (bs : BitStream)
    (buf : Nat → Nat) (count bits total : Nat) : Nat × (Nat → Nat) :=
  if h : bits < total ∧ count < 8192 then
    let r := huffman_decode_opcode table bs
    let buf1 := Function.update buf count r.1
    if r.1 = 255 ∧ 4000 < count + 1 then (count + 1, buf1)
    else decompressLoop table r.2 buf1 (count + 1) (bits + 6) total
  else (count, buf)
termination_by total - bits
decreasing_by omega

/-- `huffman_decompress_all_opcodes`: run the decode loop over the
payload from a fresh bit stream and a zeroed opcode buffer (the C
buffer is a zero-initialized static array), returning the opcode count
and the buffer. The payload bytes and `HUFFMAN_BITSTREAM_LEN` come
from the missing header, so they are parameters here. -/
def huffman_decompress_all_opcodes (table : List HuffmanEntry)
    (data : Nat → Nat) (total_bits : Nat) : Nat × (Nat → Nat) :=
  decompressLoop table (bitstream_init data) (fun _ => 0) 0 0 total_bits

/-- The frame-boundary scan in `main`:
`for (i = 0; i < total_opcodes && frame_count < FRAME_COUNT; i++)
   if (opcodes_buffer[i] == 0xFF) frame_starts[++frame_count] = i + 1;`
The opcode buffer prefix is passed as a list, `i` tracks the index of
its head, `starts` is the (C stack array) `frame_starts` and `fc` is
`frame_count`. -/
def frameStartsGo : List Nat → Nat → (Nat → Nat) → Nat → (Nat → Nat) × Nat
  | [], _, starts, fc => (starts, fc)
  | op :: rest, i, starts, fc =>
    if fc < 12 then
      if op = 255 then
        frameStartsGo rest (i + 1) (Function.update starts (fc + 1) (i + 1)) (fc + 1)
      else frameStartsGo rest (i + 1) starts fc
    else (starts, fc)

/-- `main` declares `int frame_starts[FRAME_COUNT + 1];` without an
initializer and only sets `frame_starts[0] = 0` before the scan, so the
other twelve stack slots hold indeterminate values: they are the
parameter `junk` here. Returns the populated `frame_starts` and the
number of terminators found. -/
def frameStarts (ops : List Nat) (junk : Nat → Nat) : (Nat → Nat) × Nat :=
  frameStartsGo ops 0 (Function.update junk 0 0) 0

/-- `len = frame_starts[frame + 1] - frame_starts[frame]` (truncated
subtraction: a garbage `end` below `start` makes the C `int` length
negative, and a negative bound makes the opcode loop run zero times,
exactly like length 0). -/
def segLen (starts : Nat → Nat) (k : Nat) : Nat :=
  starts (k + 1) - starts k

/-- The opcode slice `&opcodes_buffer[start]`, `len` entries long,
handed to `decompress_frame` for frame `k` (reads beyond the buffer
prefix are modelled by `getD _ 0`). -/
def segSlice (ops : List Nat) (starts : Nat → Nat) (k : Nat) : List Nat :=
  (List.range (segLen starts k)).map fun j => ops.getD (starts k + j) 0

/-- All twelve per-frame opcode slices taken by the loop in `main`. -/
def codeSegments (ops : List Nat) (junk : Nat → Nat) : List (List Nat) :=
  (List.range 12).map fun k => segSlice ops (frameStarts ops junk).1 k

/-! ### Pointwise characterizations of the write loops -/

theorem writeRun_fst (count : Nat) : ∀ (fb : Frame) (pos color i : Nat),
    (writeRun fb pos color count).1 i =
      if pos ≤ i ∧ i < pos + count ∧ i < 4096 then color else fb i := by
  induction count with
  | zero =>
    intro fb pos color i
    simp only [writeRun]
    split_ifs with h
    · omega
    · rfl
  | succ n ih =>
    intro fb pos color i
    simp only [writeRun]
    by_cases hp : pos < 4096
    · rw [if_pos hp, ih]
      simp only [Function.update_apply]
      split_ifs <;> first | rfl | omega
    · rw [if_neg hp]
      split_ifs <;> first | rfl | omega

theorem writeRun_snd (count : Nat) : ∀ (fb : Frame) (pos color : Nat),
    (writeRun fb pos color count).2 =
      if pos < 4096 then min (pos + count) 4096 else pos := by
  induction count with
  | zero =>
    intro fb pos color
    simp only [writeRun]
    split_ifs <;> omega
  | succ n ih =>
    intro fb pos color
    simp only [writeRun]
    by_cases hp : pos < 4096
    · rw [if_pos hp, ih]
      split_ifs <;> omega
    · rw [if_neg hp, if_neg hp]

theorem writeRun_snd_ge (fb : Frame) (pos color count : Nat) :
    pos ≤ (writeRun fb pos color count).2 := by
  rw [writeRun_snd]
  split_ifs <;> omega

theorem writeRun_snd_le (fb : Frame) (pos color count : Nat) (h : pos < 4096) :
    (writeRun fb pos color count).2 ≤ 4096 := by
  rw [writeRun_snd, if_pos h]
  omega

theorem fillZero_apply_aux (n : Nat) : ∀ (fb : Frame) (pos i : Nat), 4096 - pos ≤ n →
    fillZero fb pos i = if pos ≤ i ∧ i < 4096 then 0 else fb i := by
  induction n with
  | zero =>
    intro fb pos i h
    rw [fillZero, dif_neg (by omega)]
    split_ifs with hc
    · omega
    · rfl
  | succ n ih =>
    intro fb pos i h
    rw [fillZero]
    by_cases hp : pos < 4096
    · rw [dif_pos hp, ih _ _ _ (by omega)]
      simp only [Function.update_apply]
      split_ifs <;> first | rfl | omega
    · rw [dif_neg hp]
      split_ifs <;> first | rfl | omega

theorem fillZero_apply (fb : Frame) (pos i : Nat) :
    fillZero fb pos i = if pos ≤ i ∧ i < 4096 then 0 else fb i :=
  fillZero_apply_aux 4096 fb pos i (by omega)

/-! ### Invariants of the baseline opcode loop -/

theorem baselineLoop_untouched (ops : List Nat) : ∀ (fb : Frame) (pos color i : Nat),
    i < pos ∨ 4096 ≤ i → (baselineLoop ops fb pos color).1 i = fb i := by
  induction ops with
  | nil => intro fb pos color i _; rfl
  | cons op rest ih =>
    intro fb pos color i h
    simp only [baselineLoop]
    split_ifs with h1 h2 h3 h4 h5
    · rfl
    · exact ih fb pos _ i h
    · rw [ih _ _ _ _ (by rcases h with h | h; exact Or.inl (lt_of_lt_of_le h (writeRun_snd_ge _ _ _ _)); exact Or.inr h),
        writeRun_fst]
      split_ifs <;> first | rfl | omega
    · rw [ih _ _ _ _ (by rcases h with h | h; exact Or.inl (lt_of_lt_of_le h (writeRun_snd_ge _ _ _ _)); exact Or.inr h),
        writeRun_fst]
      split_ifs <;> first | rfl | omega
    · exact ih fb pos color i h
    · rfl

theorem baselineLoop_pos_le (ops : List Nat) : ∀ (fb : Frame) (pos color : Nat),
    pos ≤ (baselineLoop ops fb pos color).2 := by
  induction ops with
  | nil => intro fb pos color; exact le_refl _
  | cons op rest ih =>
    intro fb pos color
    simp only [baselineLoop]
    split_ifs
    · exact le_refl _
    · exact ih fb pos _
    · exact le_trans (writeRun_snd_ge _ _ _ _) (ih _ _ _)
    · exact le_trans (writeRun_snd_ge _ _ _ _) (ih _ _ _)
    · exact ih fb pos color
    · exact le_refl _

theorem baselineLoop_snd_le (ops : List Nat) : ∀ (fb : Frame) (pos color : Nat),
    pos ≤ 4096 → (baselineLoop ops fb pos color).2 ≤ 4096 := by
  induction ops with
  | nil => intro fb pos color h; exact h
  | cons op rest ih =>
    intro fb pos color h
    simp only [baselineLoop]
    split_ifs with h1 h2 h3 h4 h5
    · exact h
    · exact ih fb pos _ h
    · exact ih _ _ _ (writeRun_snd_le _ _ _ _ h1)
    · exact ih _ _ _ (writeRun_snd_le _ _ _ _ h1)
    · exact ih fb pos color h
    · exact h

theorem baselineLoop_covered (ops : List Nat) : ∀ (fb : Frame) (pos color i : Nat),
    color ≤ 15 → pos ≤ i → i < (baselineLoop ops fb pos color).2 →
    (baselineLoop ops fb pos color).1 i ≤ 15 := by
  induction ops with
  | nil => intro fb pos color i _ h1 h2; simp only [baselineLoop] at h2; omega
  | cons op rest ih =>
    intro fb pos color i hcol hlo hhi
    simp only [baselineLoop] at hhi ⊢
    split_ifs at hhi ⊢ with h1 h2 h3 h4 h5
    · omega
    · exact ih fb pos _ i (Nat.and_le_right) hlo hhi
    · rcases Nat.lt_or_ge i (writeRun fb pos color ((op &&& 15) + 1)).2 with hi | hi
      · rw [baselineLoop_untouched _ _ _ _ _ (Or.inl hi), writeRun_fst]
        rw [writeRun_snd, if_pos h1] at hi
        split_ifs with hcond
        · exact hcol
        · omega
      · exact ih _ _ _ _ hcol hi hhi
    · rcases Nat.lt_or_ge i (writeRun fb pos color (((op &&& 15) + 1) * 16)).2 with hi | hi
      · rw [baselineLoop_untouched _ _ _ _ _ (Or.inl hi), writeRun_fst]
        rw [writeRun_snd, if_pos h1] at hi
        split_ifs with hcond
        · exact hcol
        · omega
      · exact ih _ _ _ _ hcol hi hhi
    · exact ih fb pos color i hcol hlo hhi
    · omega

/-! ### Invariants of the delta opcode loop -/

theorem deltaLoop_untouched (ops : List Nat) : ∀ (fb : Frame) (pos color i : Nat),
    i < pos ∨ 4096 ≤ i → (deltaLoop ops fb pos color).1 i = fb i := by
  induction ops with
  | nil => intro fb pos color i _; rfl
  | cons op rest ih =>
    intro fb pos color i h
    simp only [deltaLoop]
    split_ifs with h1 h2 h3 h4 h5 h6 h7 h8
    · rfl
    · exact ih fb pos _ i h
    · exact ih fb _ color i (by omega)
    · rw [ih _ _ _ _ (by rcases h with h | h; exact Or.inl (lt_of_lt_of_le h (writeRun_snd_ge _ _ _ _)); exact Or.inr h),
        writeRun_fst]
      split_ifs <;> first | rfl | omega
    · exact ih fb _ color i (by omega)
    · rw [ih _ _ _ _ (by rcases h with h | h; exact Or.inl (lt_of_lt_of_le h (writeRun_snd_ge _ _ _ _)); exact Or.inr h),
        writeRun_fst]
      split_ifs <;> first | rfl | omega
    · exact ih fb _ color i (by omega)
    · exact ih fb pos color i h
    · rfl

theorem deltaLoop_snd_le (ops : List Nat) : ∀ (fb : Frame) (pos color : Nat),
    pos ≤ 5119 → (deltaLoop ops fb pos color).2 ≤ 5119 := by
  induction ops with
  | nil => intro fb pos color h; exact h
  | cons op rest ih =>
    intro fb pos color h
    have hop : op &&& 15 ≤ 15 := Nat.and_le_right
    simp only [deltaLoop]
    split_ifs with h1 h2 h3 h4 h5 h6 h7 h8
    · exact h
    · exact ih fb pos _ h
    · exact ih fb _ color (by omega)
    · exact ih _ _ _ (le_trans (writeRun_snd_le _ _ _ _ h1) (by omega))
    · exact ih fb _ color (by omega)
    · exact ih _ _ _ (le_trans (writeRun_snd_le _ _ _ _ h1) (by omega))
    · exact ih fb _ color (by omega)
    · exact ih fb pos color h
    · exact h

theorem deltaLoop_pointwise (ops : List Nat) : ∀ (fb : Frame) (pos color i : Nat),
    color ≤ 15 →
    (deltaLoop ops fb pos color).1 i = fb i ∨ (deltaLoop ops fb pos color).1 i ≤ 15 := by
  induction ops with
  | nil => intro fb pos color i _; exact Or.inl rfl
  | cons op rest ih =>
    intro fb pos color i hcol
    simp only [deltaLoop]
    split_ifs with h1 h2 h3 h4 h5 h6 h7 h8
    · exact Or.inl rfl
    · exact ih fb pos _ i Nat.and_le_right
    · exact ih fb _ color i hcol
    · rcases ih (writeRun fb pos color ((op &&& 15) + 1)).1 _ color i hcol with h | h
      · rw [h, writeRun_fst]
        split_ifs
        · exact Or.inr hcol
        · exact Or.inl rfl
      · exact Or.inr h
    · exact ih fb _ color i hcol
    · rcases ih (writeRun fb pos color (((op &&& 15) + 1) * 16)).1 _ color i hcol with h | h
      · rw [h, writeRun_fst]
        split_ifs
        · exact Or.inr hcol
        · exact Or.inl rfl
      · exact Or.inr h
    · exact ih fb _ color i hcol
    · exact ih fb pos color i hcol
    · exact Or.inl rfl

/-! ### Bit-stream and decoder lemmas -/

theorem two_mul_or_bit (a b : Nat) (hb : b ≤ 1) : 2 * a ||| b = 2 * a + b := by
  rcases Nat.le_one_iff_eq_zero_or_eq_one.1 hb with rfl | rfl
  · simp
  · apply Nat.eq_of_testBit_eq
    intro i
    cases i with
    | zero =>
      rw [Nat.testBit_or, Nat.testBit_zero, Nat.testBit_zero, Nat.testBit_zero]
      have h1 : 2 * a % 2 = 0 := by omega
      have h2 : (2 * a + 1) % 2 = 1 := by omega
      simp [h1, h2]
    | succ n =>
      rw [Nat.testBit_or, Nat.testBit_succ, Nat.testBit_succ, Nat.testBit_succ]
      have h1 : 2 * a / 2 = a := by omega
      have h2 : (2 * a + 1) / 2 = a := by omega
      have h3 : (1 : Nat) / 2 = 0 := by omega
      rw [h1, h2, h3]
      simp

theorem shiftRight_recombine (y : Nat) : ((y >>> 1) <<< 1) ||| (y &&& 1) = y := by
  rw [Nat.shiftLeft_eq, Nat.shiftRight_eq_div_pow, Nat.and_one_is_mod, pow_one,
    Nat.mul_comm, two_mul_or_bit (y / 2) (y % 2) (by omega)]
  omega

theorem read_bit_le_one (bs : BitStream) : (bitstream_read_bit bs).1 ≤ 1 := by
  simp only [bitstream_read_bit]
  exact Nat.and_le_right

theorem readBits_length (n : Nat) : ∀ bs : BitStream, (readBits bs n).1.length = n := by
  induction n with
  | zero => intro bs; rfl
  | succ m ih => intro bs; simp only [readBits, List.length_cons, ih]

theorem codeBits_succ (L code : Nat) :
    codeBits (L + 1) code = ((code >>> L) &&& 1) :: codeBits L code := by
  unfold codeBits
  rw [List.range_succ_eq_map, List.map_cons, List.map_map]
  refine congrArg₂ _ (by norm_num) ?_
  apply List.map_congr_left
  intro k _
  simp only [Function.comp_apply]
  have h : L + 1 - 1 - (k + 1) = L - 1 - k := by omega
  rw [h]

/-- The decoder, run with `r` codeword bits still pending from table
entry `e` and the matching first `e.code_len - r` bits already
accumulated, returns `e.opcode`: no shorter entry can fire first
because the table is a canonical prefix code. -/
theorem decodeGo_codeword (table : List HuffmanEntry) (hgood : codeTableGood table)
    (e : HuffmanEntry) (he : e ∈ table) :
    ∀ (r : Nat), ∀ (cl : Nat) (bs : BitStream), cl + r = e.code_len → 0 < r →
      (readBits bs r).1 = codeBits r e.code →
      (decodeGo table (16 - cl) (e.code >>> r) cl bs).1 = e.opcode := by
  intro r
  induction r with
  | zero => intro cl bs _ h2 _; omega
  | succ rr ih =>
    intro cl bs hsum hpos hbits
    obtain ⟨hlen1, hlen16, hcode⟩ := hgood.1 e he
    have hcl : cl < 16 := by omega
    have hfuel : 16 - cl = (16 - (cl + 1)) + 1 := by omega
    rw [hfuel]
    simp only [readBits] at hbits
    rw [codeBits_succ] at hbits
    have hb : (bitstream_read_bit bs).1 = (e.code >>> rr) &&& 1 :=
      (List.cons.injEq _ _ _ _ ▸ hbits).1
    have hrest : (readBits (bitstream_read_bit bs).2 rr).1 = codeBits rr e.code :=
      (List.cons.injEq _ _ _ _ ▸ hbits).2
    have hccsmall : e.code >>> rr < 2 ^ 16 := by
      have h1 : e.code >>> rr ≤ e.code := by
        rw [Nat.shiftRight_eq_div_pow]
        exact Nat.div_le_self _ _
      have h2 : (2 : Nat) ^ e.code_len ≤ 2 ^ 16 := Nat.pow_le_pow_right (by omega) hlen16
      omega
    have hcc1 : ((e.code >>> (rr + 1)) <<< 1 ||| (bitstream_read_bit bs).1) % 2 ^ 16 =
        e.code >>> rr := by
      rw [hb, Nat.shiftRight_add e.code rr 1, shiftRight_recombine]
      exact Nat.mod_eq_of_lt hccsmall
    simp only [decodeGo]
    rw [hcc1]
    rcases Nat.eq_zero_or_pos rr with hrr | hrr
    · subst hrr
      have hfind : ∃ d, table.find?
          (fun d => d.code_len == cl + 1 && d.code == e.code >>> 0) = some d := by
        rw [← Option.isSome_iff_exists]
        rcases hf : table.find? (fun d => d.code_len == cl + 1 && d.code == e.code >>> 0) with
          _ | d
        · exfalso
          have := List.find?_eq_none.1 hf e he
          simp only [Bool.and_eq_true, beq_iff_eq] at this
          exact this ⟨by omega, by simp⟩
        · rw [hf]; rfl
      obtain ⟨d, hd⟩ := hfind
      rw [hd]
      have hpd := List.find?_some hd
      simp only [Bool.and_eq_true, beq_iff_eq] at hpd
      have hdmem := List.mem_of_find?_eq_some hd
      exact hgood.2.1 d hdmem e he (by omega) (by simpa using hpd.2)
    · have hnone : table.find?
          (fun d => d.code_len == cl + 1 && d.code == e.code >>> rr) = none := by
        rw [List.find?_eq_none]
        intro d hdmem hpd
        simp only [Bool.and_eq_true, beq_iff_eq] at hpd
        have hshort : d.code_len < e.code_len := by omega
        have := hgood.2.2 d hdmem e he hshort
        rw [hpd.1] at this
        have hr : e.code_len - (cl + 1) = rr := by omega
        rw [hr] at this
        exact this hpd.2.symm
      rw [hnone]
      exact ih (cl + 1) (bitstream_read_bit bs).2 (by omega) hrr hrest

/-- The matching loop returns the 0xFF sentinel exactly when none of
the `fuel` remaining lengths produces a table hit on the accumulated
code (given that no table entry carries opcode 0xFF). -/
theorem decodeGo_255_iff (table : List HuffmanEntry)
    (h255 : ∀ e ∈ table, e.opcode ≠ 255) :
    ∀ (fuel cl cc : Nat) (bs : BitStream),
      ((decodeGo table fuel cc cl bs).1 = 255 ↔
        ∀ j, 1 ≤ j → j ≤ fuel → ∀ e ∈ table,
          ¬(e.code_len = cl + j ∧ e.code = accumVal cc bs j)) := by
  intro fuel
  induction fuel with
  | zero =>
    intro cl cc bs
    constructor
    · intro _ j h1 h2; omega
    · intro _; rfl
  | succ n ih =>
    intro cl cc bs
    simp only [decodeGo]
    rcases hf : table.find?
        (fun e => e.code_len == cl + 1 && e.code == ((cc <<< 1) ||| (bitstream_read_bit bs).1) % 2 ^ 16) with
      _ | d
    · rw [hf]
      constructor
      · intro hrec j h1 hj e hemem hc
        rcases Nat.lt_or_ge j 2 with hj1 | hj2
        · have hj' : j = 1 := by omega
          subst hj'
          have := List.find?_eq_none.1 hf e hemem
          simp only [Bool.and_eq_true, beq_iff_eq, not_and] at this
          exact this (by omega) hc.2
        · obtain ⟨j', rfl⟩ : ∃ j', j = j' + 1 := ⟨j - 1, by omega⟩
          exact (ih (cl + 1) _ (bitstream_read_bit bs).2).1 hrec j' (by omega) (by omega)
            e hemem ⟨by omega, hc.2⟩
      · intro hall
        apply (ih (cl + 1) _ (bitstream_read_bit bs).2).2
        intro j h1 hj e hemem hc
        exact hall (j + 1) (by omega) (by omega) e hemem ⟨by omega, hc.2⟩
    · rw [hf]
      have hdmem := List.mem_of_find?_eq_some hf
      have hpd := List.find?_some hf
      simp only [Bool.and_eq_true, beq_iff_eq] at hpd
      constructor
      · intro habs
        exact absurd habs (h255 d hdmem)
      · intro hall
        exfalso
        exact hall 1 (le_refl 1) (by omega) d hdmem ⟨by omega, hpd.2⟩

theorem accumVal_eq_bitsVal : ∀ (j cc : Nat) (bs : BitStream), j ≤ 16 →
    cc < 2 ^ (16 - j) →
    accumVal cc bs j = cc * 2 ^ j + bitsVal (readBits bs j).1 := by
  intro j
  induction j with
  | zero => intro cc bs _ _; simp [accumVal, readBits, bitsVal]
  | succ n ih =>
    intro cc bs hj hcc
    have hb : (bitstream_read_bit bs).1 ≤ 1 := read_bit_le_one bs
    have hpow : 2 ^ (16 - n) = 2 * 2 ^ (16 - (n + 1)) := by
      rw [← pow_succ']
      congr 1
      omega
    have hcc2 : 2 * cc + (bitstream_read_bit bs).1 < 2 ^ (16 - n) := by omega
    have hor : (cc <<< 1) ||| (bitstream_read_bit bs).1 =
        2 * cc + (bitstream_read_bit bs).1 := by
      rw [Nat.shiftLeft_eq, pow_one, Nat.mul_comm]
      exact two_mul_or_bit _ _ hb
    have hlt16 : 2 * cc + (bitstream_read_bit bs).1 < 2 ^ 16 := by
      have : (2 : Nat) ^ (16 - n) ≤ 2 ^ 16 := Nat.pow_le_pow_right (by omega) (by omega)
      omega
    simp only [accumVal, readBits]
    rw [hor, Nat.mod_eq_of_lt hlt16, ih _ _ (by omega) hcc2]
    simp only [bitsVal, readBits_length]
    ring

/-! ### The opcode-stream loop -/

/-- Master invariant of `decompressLoop`: the count never passes 8192,
entries outside `[count₀, final count)` are untouched, and the loop
only stops because the bit estimate reached the budget, the buffer is
full, or a 0xFF arrived past the 4000-opcode threshold (in which case
it is the last stored opcode). -/
theorem decompressLoop_spec (table : List HuffmanEntry) (total : Nat) :
    ∀ (n : Nat) (bs : BitStream) (buf : Nat → Nat) (count bits : Nat),
      total - bits ≤ n → count ≤ 8192 →
      count ≤ (decompressLoop table bs buf count bits total).1 ∧
      (decompressLoop table bs buf count bits total).1 ≤ 8192 ∧
      (∀ i, i < count ∨ (decompressLoop table bs buf count bits total).1 ≤ i →
        (decompressLoop table bs buf count bits total).2 i = buf i) ∧
      (total ≤ bits + 6 * ((decompressLoop table bs buf count bits total).1 - count) ∨
       (decompressLoop table bs buf count bits total).1 = 8192 ∨
       (4000 < (decompressLoop table bs buf count bits total).1 ∧
        (decompressLoop table bs buf count bits total).2
          ((decompressLoop table bs buf count bits total).1 - 1) = 255)) := by
  intro n
  induction n with
  | zero =>
    intro bs buf count bits h hc
    rw [decompressLoop, dif_neg (by omega)]
    exact ⟨le_refl _, hc, fun i _ => rfl, Or.inl (by omega)⟩
  | succ n ih =>
    intro bs buf count bits h hc
    rw [decompressLoop]
    by_cases hg : bits < total ∧ count < 8192
    · rw [dif_pos hg]
      by_cases hbrk : (huffman_decode_opcode table bs).1 = 255 ∧ 4000 < count + 1
      · rw [if_pos hbrk]
        refine ⟨by omega, by omega, ?_, Or.inr (Or.inr ⟨by omega, ?_⟩)⟩
        · intro i hi
          exact Function.update_noteq (by omega) _ _
        · show Function.update buf count (huffman_decode_opcode table bs).1 (count + 1 - 1) = 255
          have hco : count + 1 - 1 = count := by omega
          rw [hco, Function.update_same]
          exact hbrk.1
      · rw [if_neg hbrk]
        obtain ⟨ih1, ih2, ih3, ih4⟩ := ih (huffman_decode_opcode table bs).2
          (Function.update buf count (huffman_decode_opcode table bs).1)
          (count + 1) (bits + 6) (by omega) (by omega)
        refine ⟨by omega, ih2, ?_, ?_⟩
        · intro i hi
          rw [ih3 i (by omega)]
          exact Function.update_noteq (by omega) _ _
        · rcases ih4 with h4 | h4 | h4
          · exact Or.inl (by omega)
          · exact Or.inr (Or.inl h4)
          · exact Or.inr (Or.inr h4)
    · rw [dif_neg hg]
      refine ⟨le_refl _, hc, fun i _ => rfl, ?_⟩
      rcases Nat.lt_or_ge bits total with hb | hb
      · exact Or.inr (Or.inl (by omega))
      · exact Or.inl (by omega)

theorem copyFrame_low (dst src : Frame) (i : Nat) (h : i < 4096) :
    copyFrame dst src i = src i := by
  simp only [copyFrame]
  rw [if_pos h]

theorem copyFrame_high (dst src : Frame) (i : Nat) (h : 4096 ≤ i) :
    copyFrame dst src i = dst i := by
  simp only [copyFrame]
  rw [if_neg (by omega)]

/-! ### Claim theorems -/

/-- C1, counterexample: on the delta segment
`[0x10, 0x5F, 0x5F, 0x5F, 0x5F]` (skip 1, then four very-long skips of
1024) the reconstruction cursor of `decompress_frame` ends at 4097,
so the claimed invariant `position ≤ 4096` is false: skip opcodes do
not clamp the cursor advance. -/
theorem C1_cursor_overrun :
    4096 < (deltaLoop [16, 95, 95, 95, 95] (fun _ => 0) 0 0).2 := by decide

/-- C1, amended: no write ever lands beyond frame index 4095 (cells at
index ≥ 4096 of both buffers are untouched by `decompress_frame`), the
baseline cursor is clamped to at most 4096, and the delta cursor —
which skip opcodes advance without clamping — still never exceeds
5119 = 4095 + the largest possible skip. -/
theorem C1_clamped_writes (idx : Nat) (ops : List Nat) (fb prev : Frame) (k : Nat) :
    (decompress_frame idx ops fb prev).1 (4096 + k) = fb (4096 + k) ∧
    (decompress_frame idx ops fb prev).2 (4096 + k) = prev (4096 + k) ∧
    (baselineLoop ops fb 0 0).2 ≤ 4096 ∧
    (deltaLoop ops (copyFrame fb prev) 0 0).2 ≤ 5119 := by
  have hge : (4096 : Nat) ≤ 4096 + k := by omega
  have hfb1 : (decompress_frame idx ops fb prev).1 (4096 + k) = fb (4096 + k) := by
    by_cases hidx : idx = 0
    · subst hidx
      simp only [decompress_frame, eq_self_iff_true, if_true]
      rw [fillZero_apply, if_neg (by omega)]
      exact baselineLoop_untouched ops fb 0 0 _ (Or.inr hge)
    · simp only [decompress_frame, if_neg hidx]
      rw [deltaLoop_untouched ops _ 0 0 _ (Or.inr hge)]
      exact copyFrame_high fb prev _ hge
  refine ⟨hfb1, ?_, baselineLoop_snd_le ops fb 0 0 (by omega),
    deltaLoop_snd_le ops _ 0 0 (by omega)⟩
  rw [show (decompress_frame idx ops fb prev).2 =
      copyFrame prev (decompress_frame idx ops fb prev).1 from rfl]
  exact copyFrame_high prev _ _ hge

/-- C2: with the opcode stream `[0x05, 0xFF]` (a single terminator) the
scan in `main` finds one terminator, and the length of frame 1's
segment is read from an uninitialized `frame_starts` stack slot — with
garbage value 7 in the slots it is 5, not the zero length the claim
asserts. The reconstruction half of the claim does hold: on an empty
segment frame 0 becomes all-zero and a delta frame copies its
predecessor. -/
theorem C2_uninitialized_starts :
    ((frameStarts [5, 255] (fun _ => 7)).2 = 1 ∧
     segLen (frameStarts [5, 255] (fun _ => 7)).1 1 = 5) ∧
    (∀ (fb prev : Frame) (i : Fin 4096),
      (decompress_frame 0 [] fb prev).1 i.val = 0 ∧
      ∀ idx : Nat, (decompress_frame (idx + 1) [] fb prev).1 i.val = prev i.val) := by
  refine ⟨by decide, fun fb prev i => ⟨?_, fun idx => ?_⟩⟩
  · simp only [decompress_frame, eq_self_iff_true, if_true, baselineLoop]
    rw [fillZero_apply, if_pos ⟨by omega, i.2⟩]
  · simp only [decompress_frame, if_neg (Nat.succ_ne_zero idx), deltaLoop]
    exact copyFrame_low fb prev i.val i.2

/-- C3: on the stream `[0xFF × 11, 0x05]`, which contains exactly 11
interior terminators, `frame_starts[12]` is never written by the scan
(the count stops at 11), so segment 12's extent comes from an
uninitialized stack slot; with garbage value 0 the twelve slices
flatten to eleven 0xFF bytes and the trailing 0x05 is lost, so they do
not reproduce the original sequence. -/
theorem C3_last_segment_lost :
    (frameStarts (List.replicate 11 255 ++ [5]) (fun _ => 0)).2 = 11 ∧
    (codeSegments (List.replicate 11 255 ++ [5]) (fun _ => 0)).flatten ≠
      List.replicate 11 255 ++ [5] := by decide

/-- C4: for any code table satisfying the spec's well-formedness (no
duplicate (length, value) pairs, canonical prefix-freeness, lengths 1
to 16) and any entry `e` of it, decoding a bit stream whose first
`e.code_len` bits are exactly `e`'s codeword returns `e.opcode`. -/
theorem C4_decode_codeword (table : List HuffmanEntry) (e : HuffmanEntry)
    (bs : BitStream) (hgood : codeTableGood table) (he : e ∈ table)
    (hbits : (readBits bs e.code_len).1 = codeBits e.code_len e.code) :
    (huffman_decode_opcode table bs).1 = e.opcode := by
  obtain ⟨hlen1, _, hlt⟩ := hgood.1 e he
  have h0 : e.code >>> e.code_len = 0 := by
    rw [Nat.shiftRight_eq_div_pow]
    exact Nat.div_eq_of_lt hlt
  have h := decodeGo_codeword table hgood e he e.code_len 0 bs (by omega) (by omega) hbits
  rw [h0] at h
  simpa [huffman_decode_opcode] using h

theorem C4_decode_codeword_witness :
    codeTableGood [⟨2, 2, 7⟩, ⟨0, 1, 3⟩] ∧
    (⟨2, 2, 7⟩ : HuffmanEntry) ∈ ([⟨2, 2, 7⟩, ⟨0, 1, 3⟩] : List HuffmanEntry) ∧
    (readBits (bitstream_init (fun _ => 128)) 2).1 = codeBits 2 2 ∧
    (huffman_decode_opcode [⟨2, 2, 7⟩, ⟨0, 1, 3⟩] (bitstream_init (fun _ => 128))).1 = 7 :=
  ⟨by decide, by decide, by decide,
   C4_decode_codeword [⟨2, 2, 7⟩, ⟨0, 1, 3⟩] ⟨2, 2, 7⟩ (bitstream_init (fun _ => 128))
     (by decide) (by decide) (by decide)⟩

/-- C5: provided no table entry carries opcode 0xFF (the spec says the
terminator is never a decodable codeword), `huffman_decode_opcode`
returns 0xFF exactly when none of the 16 accumulated (length, value)
prefixes of the bit stream matches a table entry. -/
theorem C5_sentinel_iff (table : List HuffmanEntry) (bs : BitStream)
    (h255 : ∀ e ∈ table, e.opcode ≠ 255) :
    ((huffman_decode_opcode table bs).1 = 255 ↔
      ∀ k, 1 ≤ k → k ≤ 16 → ∀ e ∈ table,
        ¬(e.code_len = k ∧ e.code = bitsVal (readBits bs k).1)) := by
  have hconv : ∀ k, k ≤ 16 → accumVal 0 bs k = bitsVal (readBits bs k).1 := by
    intro k hk
    rw [accumVal_eq_bitsVal k 0 bs hk (Nat.two_pow_pos _)]
    simp
  refine Iff.trans (decodeGo_255_iff table h255 16 0 0 bs) ⟨?_, ?_⟩
  · intro H k h1 h2 e he hc
    refine H k h1 h2 e he ⟨by omega, ?_⟩
    rw [hconv k h2]
    exact hc.2
  · intro H k h1 h2 e he hc
    refine H k h1 h2 e he ⟨by omega, ?_⟩
    rw [← hconv k h2]
    exact hc.2

theorem C5_sentinel_iff_witness :
    (∀ e ∈ ([] : List HuffmanEntry), e.opcode ≠ 255) ∧
    ((huffman_decode_opcode [] (bitstream_init (fun _ => 0))).1 = 255 ↔
      ∀ k, 1 ≤ k → k ≤ 16 → ∀ e ∈ ([] : List HuffmanEntry),
        ¬(e.code_len = k ∧ e.code = bitsVal (readBits (bitstream_init (fun _ => 0)) k).1)) :=
  ⟨fun e he => absurd he (List.not_mem_nil e),
   C5_sentinel_iff [] (bitstream_init (fun _ => 0))
     (fun e he => absurd he (List.not_mem_nil e))⟩

/-- C6: frame 0 on segment `[0x05, 0x23]` paints color 5 at positions
0–3, and the fill loop zeroes positions 4–4095, whatever the frame
buffer held before. -/
theorem C6_baseline_short (fb prev : Frame) (i : Fin 4096) :
    (decompress_frame 0 [5, 35] fb prev).1 i.val = if i.val < 4 then 5 else 0 := by
  have e1 : (5 : Nat) &&& 240 = 0 := by decide
  have e2 : (35 : Nat) &&& 240 = 32 := by decide
  have e3 : (35 : Nat) &&& 15 = 3 := by decide
  have e4 : (5 : Nat) &&& 15 = 5 := by decide
  have h1 : baselineLoop [5, 35] fb 0 0 = writeRun fb 0 5 4 := by
    simp [baselineLoop, e1, e2, e3, e4]
  have h2 : (writeRun fb 0 5 4).2 = 4 := by
    rw [writeRun_snd]
    norm_num
  have hi := i.2
  simp only [decompress_frame, eq_self_iff_true, if_true]
  rw [h1, h2, fillZero_apply, writeRun_fst]
  split_ifs <;> first | rfl | omega

/-- C7: a delta frame (any nonzero index) on segment
`[0x05, 0x12, 0x22]` equals the previous frame except at positions
3, 4, 5, which receive color 5. -/
theorem C7_delta_patch (idx : Nat) (fb prev : Frame) (i : Fin 4096) :
    (decompress_frame (idx + 1) [5, 18, 34] fb prev).1 i.val =
      if 3 ≤ i.val ∧ i.val < 6 then 5 else prev i.val := by
  have e1 : (5 : Nat) &&& 240 = 0 := by decide
  have e2 : (18 : Nat) &&& 240 = 16 := by decide
  have e3 : (18 : Nat) &&& 15 = 2 := by decide
  have e4 : (34 : Nat) &&& 240 = 32 := by decide
  have e5 : (34 : Nat) &&& 15 = 2 := by decide
  have e6 : (5 : Nat) &&& 15 = 5 := by decide
  have h1 : deltaLoop [5, 18, 34] (copyFrame fb prev) 0 0 =
      writeRun (copyFrame fb prev) 3 5 3 := by
    simp [deltaLoop, e1, e2, e3, e4, e5, e6]
  have hi := i.2
  simp only [decompress_frame, if_neg (Nat.succ_ne_zero idx)]
  rw [h1, writeRun_fst]
  simp only [copyFrame]
  split_ifs <;> first | rfl | omega

/-- C8: the opcode-stream pass (total by construction — the 6-bit
estimate grows every iteration) yields a count of at most 8192, leaves
every buffer cell at index ≥ count at its initial zero, and stops only
because the bit estimate reached the budget, the buffer filled, or a
0xFF arrived past the 4000-opcode threshold. -/
theorem C8_stream_bounds (table : List HuffmanEntry) (data : Nat → Nat) (total : Nat) :
    (huffman_decompress_all_opcodes table data total).1 ≤ 8192 ∧
    (∀ k, (huffman_decompress_all_opcodes table data total).2
        ((huffman_decompress_all_opcodes table data total).1 + k) = 0) ∧
    (total ≤ 6 * (huffman_decompress_all_opcodes table data total).1 ∨
     (huffman_decompress_all_opcodes table data total).1 = 8192 ∨
     (4000 < (huffman_decompress_all_opcodes table data total).1 ∧
      (huffman_decompress_all_opcodes table data total).2
        ((huffman_decompress_all_opcodes table data total).1 - 1) = 255)) := by
  unfold huffman_decompress_all_opcodes
  obtain ⟨h1, h2, h3, h4⟩ := decompressLoop_spec table total total (bitstream_init data)
    (fun _ => 0) 0 0 (by omega) (by omega)
  refine ⟨h2, fun k => h3 _ (Or.inr (by omega)), ?_⟩
  rcases h4 with h | h | h
  · exact Or.inl (by omega)
  · exact Or.inr (Or.inl h)
  · exact Or.inr (Or.inr h)

/-- C9: if every cell of the previous frame is a 4-bit color then so is
every cell of the frame produced by `decompress_frame`; frame 0
guarantees this without any assumption on the previous frame, since its
cells come only from low nibbles and the zero fill. -/
theorem C9_colors_in_range (idx : Nat) (ops : List Nat) (fb prev : Frame) :
    ((∀ i : Fin 4096, prev i.val ≤ 15) →
      ∀ i : Fin 4096, (decompress_frame idx ops fb prev).1 i.val ≤ 15) ∧
    (∀ i : Fin 4096, (decompress_frame 0 ops fb prev).1 i.val ≤ 15) := by
  have hbase : ∀ i : Fin 4096, (decompress_frame 0 ops fb prev).1 i.val ≤ 15 := by
    intro i
    have hi := i.2
    simp only [decompress_frame, eq_self_iff_true, if_true]
    rw [fillZero_apply]
    split_ifs with hc
    · omega
    · exact baselineLoop_covered ops fb 0 0 i.val (by omega) (by omega) (by omega)
  refine ⟨?_, hbase⟩
  intro hprev i
  rcases Nat.eq_zero_or_pos idx with rfl | hpos
  · exact hbase i
  · have hi := i.2
    simp only [decompress_frame, if_neg (by omega : idx ≠ 0)]
    rcases deltaLoop_pointwise ops (copyFrame fb prev) 0 0 i.val (by omega) with h | h
    · rw [h, copyFrame_low fb prev i.val hi]
      exact hprev i
    · exact h

theorem C9_colors_in_range_witness :
    (∀ i : Fin 4096, (fun _ => 0 : Frame) i.val ≤ 15) ∧
    (∀ i : Fin 4096,
      (decompress_frame 1 [] (fun _ => 0) (fun _ => 0)).1 i.val ≤ 15) :=
  ⟨fun _ => Nat.zero_le 15,
   (C9_colors_in_range 1 [] (fun _ => 0) (fun _ => 0)).1 (fun _ => Nat.zero_le 15)⟩

/-- C10: inside the decode loop, a 0xFF opcode stored as opcode number
`count + 1 > 4000` ends the loop at once with that 0xFF as the final
stored opcode, while a 0xFF stored at or below the 4000 threshold lets
the loop continue. -/
theorem C10_terminator_break (table : List HuffmanEntry) (bs : BitStream)
    (buf : Nat → Nat) (count bits total : Nat)
    (hg : bits < total ∧ count < 8192)
    (hdec : (huffman_decode_opcode table bs).1 = 255) :
    (4000 < count + 1 →
      decompressLoop table bs buf count bits total =
        (count + 1, Function.update buf count 255)) ∧
    (count + 1 ≤ 4000 →
      decompressLoop table bs buf count bits total =
        decompressLoop table (huffman_decode_opcode table bs).2
          (Function.update buf count 255) (count + 1) (bits + 6) total) := by
  constructor
  · intro h
    rw [decompressLoop, dif_pos hg, if_pos ⟨hdec, h⟩, hdec]
  · intro h
    rw [decompressLoop, dif_pos hg,
      if_neg (fun hh => absurd hh.2 (by omega)), hdec]

theorem C10_terminator_break_witness :
    ((0 : Nat) < 100000 ∧ (4000 : Nat) < 8192) ∧
    (huffman_decode_opcode [] (bitstream_init (fun _ => 0))).1 = 255 ∧
    (4000 < 4000 + 1 →
      decompressLoop [] (bitstream_init (fun _ => 0)) (fun _ => 0) 4000 0 100000 =
        (4000 + 1, Function.update (fun _ => 0) 4000 255)) :=
  ⟨⟨by omega, by omega⟩, by decide,
   (C10_terminator_break [] (bitstream_init (fun _ => 0)) (fun _ => 0) 4000 0 100000
     ⟨by omega, by omega⟩ (by decide)).1⟩

end Nyancat
